import Mathlib

set_option maxRecDepth 4000

/-!
Verification of the VoxScriptum text-normalization, deduplication and
paragraph-assembly pipeline.

The Python sources are shallowly embedded as executable Lean functions over
`List Char` and `String`.  External collaborators that the core calls into
(BeautifulSoup HTML extraction, unicodedata NFKD, the NLTK tokenizer and
word lexicon, the pyspellchecker dictionary, the fuzzywuzzy similarity
score, and the AI editing calls) are modelled as explicit function
parameters, since their code is not part of this repository.  Everything
else is translated directly from the source of
`src/ai_book_processing.py` and `src/book_input_handler.py`.
-/

namespace VoxScriptum

/-- Python whitespace test: the set of characters matched by the regex
class backslash-s and stripped by the Python str.strip method.  It covers
the ASCII whitespace characters (tab, newline, vertical tab, form feed,
carriage return, space, and the file/group/record/unit separators) and the
Unicode space characters. -/
def isPySpace (c : Char) : Bool :=
  c.toNat = 32 || (9 ≤ c.toNat && c.toNat ≤ 13) || (28 ≤ c.toNat && c.toNat ≤ 31) ||
  c.toNat = 0x85 || c.toNat = 0xA0 || c.toNat = 0x1680 ||
  (0x2000 ≤ c.toNat && c.toNat ≤ 0x200A) ||
  c.toNat = 0x2028 || c.toNat = 0x2029 || c.toNat = 0x202F ||
  c.toNat = 0x205F || c.toNat = 0x3000

/-- Python str.strip on a list of characters: drop Python whitespace from
both ends. -/
def pyStripL (l : List Char) : List Char :=
  (((l.dropWhile isPySpace).reverse.dropWhile isPySpace)).reverse

/-- Python str.strip on a string. -/
def pyStrip (s : String) : String :=
  ⟨pyStripL s.data⟩

/-- Python str.lower, character by character (all characters that survive
the cleanup passes of this pipeline are ASCII, where the Python and Lean
case maps agree). -/
def pyLower (s : String) : String :=
  ⟨s.data.map Char.toLower⟩

/-- State of the whitespace-collapsing scan for the regex that rewrites
every run of two or more whitespace characters into one space: either no
whitespace run is open, or a run of exactly one character is open (the
character itself is remembered, a lone whitespace character is kept as it
is), or a run of length at least two is open. -/
inductive WSState where
  | clear : WSState
  | one (c : Char) : WSState
  | many : WSState

/-- Scan implementing the substitution of the Python regex that replaces
runs of two or more whitespace characters by a single space, leaving a
lone whitespace character unchanged. -/
def collapseGo : WSState → List Char → List Char
  | WSState.clear, [] => []
  | WSState.one c, [] => [c]
  | WSState.many, [] => [' ']
  | WSState.clear, x :: rest =>
    if isPySpace x then collapseGo (WSState.one x) rest
    else x :: collapseGo WSState.clear rest
  | WSState.one c, x :: rest =>
    if isPySpace x then collapseGo WSState.many rest
    else c :: x :: collapseGo WSState.clear rest
  | WSState.many, x :: rest =>
    if isPySpace x then collapseGo WSState.many rest
    else ' ' :: x :: collapseGo WSState.clear rest

/-- Embedding of re.sub with pattern backslash-s-brace-2-comma-brace and a
single-space replacement, as used in step 6 of the Normalizer. -/
def collapseWS (l : List Char) : List Char :=
  collapseGo WSState.clear l

/-- Checks that no two adjacent characters are both Python whitespace,
the condition under which the whitespace-collapsing substitution does not
fire. -/
def noDoubleWS : List Char → Bool
  | [] => true
  | [_] => true
  | c :: d :: rest => !(isPySpace c && isPySpace d) && noDoubleWS (d :: rest)

/-- Scan for the regex that replaces every maximal run of characters
outside the 0x00-0x7F range by a single space (step 4 of the Normalizer);
the flag records whether the previous character was part of such a run. -/
def asciiFilterGo : Bool → List Char → List Char
  | _, [] => []
  | prev, c :: cs =>
    if 0x7F < c.toNat then
      if prev then asciiFilterGo true cs else ' ' :: asciiFilterGo true cs
    else c :: asciiFilterGo false cs

/-- Embedding of re.sub with the negated character class 0x00-0x7F (one or
more) and a single-space replacement. -/
def asciiFilterL (l : List Char) : List Char :=
  asciiFilterGo false l

/-- Fuel-driven embedding of the Python str.replace method: scan left to
right, replace each non-overlapping occurrence of the pattern, and never
rescan the replacement text.  Fuel equal to the length of the input is
always sufficient because every step consumes at least one character of a
nonempty input. -/
def replaceAllFuel (pat repl : List Char) : Nat → List Char → List Char
  | _, [] => []
  | 0, l => l
  | fuel + 1, c :: cs =>
    if pat.isPrefixOf (c :: cs) then
      repl ++ replaceAllFuel pat repl fuel (List.drop pat.length (c :: cs))
    else c :: replaceAllFuel pat repl fuel cs

/-- Python str.replace over character lists. -/
def replaceAll (pat repl l : List Char) : List Char :=
  replaceAllFuel pat repl l.length l

/-- Scan of the rest of a tag for the non-greedy regex
angle-any-angle used in step 2 of the Normalizer: given the characters
after an opening angle bracket, return the characters after the first
closing angle bracket, provided no newline occurs before it (the dot of
the Python regex does not match a newline). -/
def findTagEnd : List Char → Option (List Char)
  | [] => none
  | c :: cs =>
    if c = '>' then some cs
    else if c = '\n' then none
    else findTagEnd cs

/-- Fuel-driven scan removing every match of the non-greedy tag regex,
replicating re.sub moving left to right and resuming after each removed
match; a stray opening bracket with no matching close is kept. -/
def removeTagsFuel : Nat → List Char → List Char
  | _, [] => []
  | 0, l => l
  | fuel + 1, c :: cs =>
    if c = '<' then
      match findTagEnd cs with
      | some rest => removeTagsFuel fuel rest
      | none => c :: removeTagsFuel fuel cs
    else c :: removeTagsFuel fuel cs

/-- Embedding of re.sub with the compiled pattern angle-dot-star-question-
angle and empty replacement (step 2 of the Normalizer). -/
def removeTagsL (l : List Char) : List Char :=
  removeTagsFuel l.length l

/-- Tokenizer state for re.findall with pattern backslash-S-plus: returns
the current (leftmost) token under construction and the list of completed
tokens to its right.  The input is consumed from the right. -/
def tokAux : List Char → List Char × List (List Char)
  | [] => ([], [])
  | c :: cs =>
    let r := tokAux cs
    if isPySpace c then ([], if r.1 = [] then r.2 else r.1 :: r.2)
    else (c :: r.1, r.2)

/-- Close the tokenizer state into the final token list. -/
def tokFinish (r : List Char × List (List Char)) : List (List Char) :=
  if r.1 = [] then r.2 else r.1 :: r.2

/-- Embedding of re.findall with pattern backslash-S-plus: the maximal
runs of non-whitespace characters, in order. -/
def pyTokens (s : String) : List String :=
  (tokFinish (tokAux s.data)).map (fun l => ⟨l⟩)

/-- Membership test of the character class a-z A-Z 0-9 backslash-s dot
used by the cleaning regex of find_misspelled_words. -/
def spellAllowed (c : Char) : Bool :=
  (97 ≤ c.toNat && c.toNat ≤ 122) || (65 ≤ c.toNat && c.toNat ≤ 90) ||
  (48 ≤ c.toNat && c.toNat ≤ 57) || isPySpace c || c = '.'

/-- Embedding of re.sub with the negated class of spellAllowed and a
single-space replacement, the first step of find_misspelled_words. -/
def cleanSpellL (l : List Char) : List Char :=
  l.map (fun c => if spellAllowed c then c else ' ')

/-- Embedding of find_misspelled_words from src/ai_book_processing.py.
The pyspellchecker dictionary is an external resource and is modelled as
the list of words it contains; membership of word.lower() in the
SpellChecker object is list membership after pyLower. -/
def find_misspelled_words (spell : List String) (text : String) : List String :=
  (pyTokens ⟨cleanSpellL text.data⟩).filter (fun w => !(spell.contains (pyLower w)))

/-- Sentinel suffix appended by clean_and_chain, five dots preceded by a
space. -/
def sentinel : List Char :=
  [' ', '.', '.', '.', '.', '.']

/-- Steps 2 to 7 of clean_and_chain (the body of its second try block,
before the final strip): residual tag removal, NFKD normalization
(modelled as the abstract parameter nfkd, an external library call),
replacement of non-ASCII runs by a space, the chain of literal
replacements (newline, tab, carriage return and the nbsp entity each to a
space, the amp entity to an ampersand, hyphen to a space), collapsing of
whitespace runs, and the appended sentinel. -/
def preSentinelL (nfkd : List Char → List Char) (l : List Char) : List Char :=
  collapseWS
    (replaceAll [ '-'] [ ' ']
      (replaceAll [ '&', 'a', 'm', 'p', ';'] [ '&']
        (replaceAll [ '&', 'n', 'b', 's', 'p', ';'] [ ' ']
          (replaceAll [ '\r'] [ ' ']
            (replaceAll [ '\t'] [ ' ']
              (replaceAll [ '\n'] [ ' ']
                (asciiFilterL (nfkd (removeTagsL l))))))))) ++ sentinel

/-- Success path of clean_and_chain after the HTML-extraction step: the
second try block followed by the final strip. -/
def cleanStepsL (nfkd : List Char → List Char) (l : List Char) : List Char :=
  pyStripL (preSentinelL nfkd l)

/-- Success path of clean_and_chain on strings. -/
def cleanSteps (nfkd : List Char → List Char) (s : String) : String :=
  ⟨cleanStepsL nfkd s.data⟩

/-- Control-flow skeleton of clean_and_chain from
src/ai_book_processing.py.  The first try block (BeautifulSoup text
extraction) is the abstract fallible call ext; if it raises (returns
none) the exception is swallowed by the bare except-pass and the input
text flows on unchanged.  The second try block is the abstract fallible
call rest; if it raises, the except branch returns the post-extraction
text verbatim, otherwise the final statement returns its result
stripped. -/
def clean_and_chain_gen (ext rest : String → Option String) (text_in : String) : String :=
  let t1 := (ext text_in).getD text_in
  match rest t1 with
  | some clntxt => pyStrip clntxt
  | none => t1

/-- Embedding of clean_and_chain with the real (total) second try block
and an abstract HTML-extraction collaborator. -/
def clean_and_chain (ext : String → Option String) (nfkd : List Char → List Char)
    (text_in : String) : String :=
  clean_and_chain_gen ext (fun s => some ⟨preSentinelL nfkd s.data⟩) text_in

/-- External calls that the orchestrator can make: the two ai_fn
collaborators prepare_audiobook and edit_audiobook, recorded with their
argument. -/
inductive ExtCall where
  | prepare (arg : String) : ExtCall
  | edit (arg : String) : ExtCall
deriving DecidableEq

/-- Embedding of the undecorated body of chain_functions: run the
spelling check on the input paragraph; if the misspelled list is nonempty
delegate to the external edit_audiobook collaborator (modelled by the
oracle edit) and return its output, otherwise return the paragraph
unchanged.  The second component records the external calls made. -/
def chain_functions_body (edit : String → String) (spell : List String)
    (clean_paragraph : String) : String × List ExtCall :=
  let spelling_errors := find_misspelled_words spell clean_paragraph
  if spelling_errors = [] then (clean_paragraph, [])
  else (edit clean_paragraph, [ExtCall.edit clean_paragraph])

/-- Embedding of chain_functions as decorated by
modify_return with the modifier names prepare_audiobook and
clean_and_chain in mode all: the wrapper first runs the body, then
unconditionally applies each modifier in order to the returned value.
The prepare_audiobook collaborator is the abstract fallible oracle
prepare; when it raises, mode all catches the exception and keeps the
previous value, but the call has still been made and is recorded. -/
def chain_functions_decorated (prepare : String → Option String) (edit : String → String)
    (ext : String → Option String) (nfkd : List Char → List Char)
    (spell : List String) (p : String) : String × List ExtCall :=
  let r := chain_functions_body edit spell p
  let r1 := (prepare r.1).getD r.1
  (clean_and_chain ext nfkd r1, r.2 ++ [ExtCall.prepare r.1])

/-- Retention test of filter_strings_with_english_words for a short
string: some token, lower-cased, is in the lexicon and is longer than 3
characters.  The NLTK word_tokenize call and the words corpus are
external resources, modelled by the abstract tokenizer tz and the word
list lex. -/
def keepString (tz : String → List String) (lex : List String) (s : String) : Bool :=
  (tz s).any (fun token => lex.contains (pyLower token) && decide (3 < token.length))

/-- Embedding of filter_strings_with_english_words from
src/book_input_handler.py: strings longer than 50 characters are appended
unconditionally, shorter strings only when some token is a lexicon word
longer than 3 characters. -/
def filter_strings_with_english_words (tz : String → List String) (lex : List String) :
    List String → List String
  | [] => []
  | s :: rest =>
    if 50 < s.length then s :: filter_strings_with_english_words tz lex rest
    else if keepString tz lex s then s :: filter_strings_with_english_words tz lex rest
    else filter_strings_with_english_words tz lex rest

/-- Scan of the existing clusters for one input string of
find_similar_strings: if the similarity score against the anchor (first
member) of some cluster meets the threshold, append the string to the
first such cluster and stop; otherwise report failure. -/
def addString (sim : String → String → Int) (threshold : Int) (s : String) :
    List (List String) → Option (List (List String))
  | [] => none
  | g :: gs =>
    if threshold ≤ sim s (g.headD "") then some ((g ++ [s]) :: gs)
    else
      match addString sim threshold s gs with
      | some gs2 => some (g :: gs2)
      | none => none

/-- Clustering pass of find_similar_strings: strings are processed in
order, each joining the first cluster whose anchor it matches, or opening
a new singleton cluster.  The fuzzywuzzy ratio is the abstract score
parameter sim. -/
def similar_groups (sim : String → String → Int) (threshold : Int)
    (strings : List String) : List (List String) :=
  strings.foldl
    (fun groups s =>
      match addString sim threshold s groups with
      | some gs => gs
      | none => groups ++ [[s]]) []

/-- Embedding of find_similar_strings from src/book_input_handler.py:
cluster the strings, remove every member of every cluster of size at
least 3 (the removal set is returned as a list with membership giving the
Python set semantics), and pass the survivors through the language
filter. -/
def find_similar_strings (sim : String → String → Int) (tz : String → List String)
    (lex : List String) (strings : List String) (threshold : Int) :
    List String × List String :=
  let groups := similar_groups sim threshold strings
  let items_to_remove := (groups.filter (fun g => decide (3 ≤ g.length))).flatten
  let filtered := strings.filter (fun s => !(items_to_remove.contains s))
  (filter_strings_with_english_words tz lex filtered, items_to_remove)

/-- Test for sentence-terminal punctuation on the last character of a
(nonempty) trimmed line, as in merge_paragraphs. -/
def isTermB (s : String) : Bool :=
  ([ '.', '!', '?'] : List Char).contains (s.data.getLastD ' ')

/-- Loop of merge_paragraphs with its accumulation buffer. -/
def mergeGo : List String → String → List String
  | [], buffer => if buffer = "" then [] else [pyStrip buffer]
  | l :: ls, buffer =>
    let l2 := pyStrip l
    if l2 = "" then mergeGo ls buffer
    else
      let b := buffer ++ l2 ++ " "
      if isTermB l2 then pyStrip b :: mergeGo ls "" else mergeGo ls b

/-- Embedding of merge_paragraphs from src/book_input_handler.py. -/
def merge_paragraphs (lines : List String) : List String :=
  mergeGo lines ""

/-- Count of lines that are nonempty after stripping and end in
sentence-terminal punctuation. -/
def termCount : List String → Nat
  | [] => 0
  | l :: ls => (if pyStrip l ≠ "" ∧ isTermB (pyStrip l) then 1 else 0) + termCount ls

/-- Last line that is nonempty after stripping, if any. -/
def lastNonEmptyStripped : List String → Option String
  | [] => none
  | l :: ls =>
    match lastNonEmptyStripped ls with
    | some s => some s
    | none => if pyStrip l = "" then none else some (pyStrip l)

/-- Whether a non-terminated tail remains in the buffer at end of input:
some line is nonempty after stripping and the last such line does not end
in sentence-terminal punctuation. -/
def hasTail (lines : List String) : Bool :=
  match lastNonEmptyStripped lines with
  | some s => !(isTermB s)
  | none => false

/-- Value of the tail flush: one extra paragraph for a pending buffer. -/
def tailFlag (o : Option String) (b : String) : Nat :=
  match o with
  | some s => if isTermB s then 0 else 1
  | none => if b = "" then 0 else 1

/-- Space-separated sentence built from a list of words, modelling the
whitespace-separated token stream that the spelling check scans. -/
def joinWords : List String → String
  | [] => ""
  | [w] => w
  | w :: ws => w ++ " " ++ joinWords ws

/-- Membership test of the ASCII letter ranges a-z and A-Z, the character
class the cleaning regexes treat as alphabetic. -/
def isAsciiLetter (c : Char) : Bool :=
  (65 ≤ c.toNat && c.toNat ≤ 90) || (97 ≤ c.toNat && c.toNat ≤ 122)

/-! Helper lemmas about the Python string primitives. -/

theorem replaceAllFuel_mem {pat repl : List Char} {f : Nat} {l : List Char} {c : Char}
    (h : c ∈ replaceAllFuel pat repl f l) : c ∈ l ∨ c ∈ repl := by
  induction f generalizing l with
  | zero =>
    cases l with
    | nil => simp [replaceAllFuel] at h
    | cons x xs => exact Or.inl h
  | succ f ih =>
    cases l with
    | nil => simp [replaceAllFuel] at h
    | cons x xs =>
      simp only [replaceAllFuel] at h
      by_cases hp : pat.isPrefixOf (x :: xs) = true
      · rw [if_pos hp] at h
        rcases List.mem_append.mp h with h1 | h2
        · exact Or.inr h1
        · rcases ih h2 with h3 | h4
          · exact Or.inl (List.drop_subset _ _ h3)
          · exact Or.inr h4
      · rw [if_neg hp] at h
        rcases List.mem_cons.mp h with h1 | h2
        · exact Or.inl (h1 ▸ List.mem_cons_self x xs)
        · rcases ih h2 with h3 | h4
          · exact Or.inl (List.mem_cons_of_mem x h3)
          · exact Or.inr h4

theorem replaceAll_mem {pat repl l : List Char} {c : Char}
    (h : c ∈ replaceAll pat repl l) : c ∈ l ∨ c ∈ repl :=
  replaceAllFuel_mem h

theorem replaceAllFuel_single_not_mem {a b : Char} (hab : a ≠ b) {f : Nat} {l : List Char}
    (hf : l.length ≤ f) : a ∉ replaceAllFuel [a] [b] f l := by
  induction f generalizing l with
  | zero =>
    cases l with
    | nil => simp [replaceAllFuel]
    | cons x xs => simp at hf
  | succ f ih =>
    cases l with
    | nil => simp [replaceAllFuel]
    | cons x xs =>
      simp only [replaceAllFuel]
      by_cases hx : x = a
      · subst hx
        have hpre : List.isPrefixOf [x] (x :: xs) = true := by
          simp [List.isPrefixOf]
        rw [if_pos hpre]
        intro hmem
        rcases List.mem_cons.mp hmem with h1 | h2
        · exact hab h1
        · simp only [List.length_cons, List.length_nil, List.drop_succ_cons,
            List.drop_zero] at h2
          exact ih (Nat.le_of_succ_le_succ hf) h2
      · have hpre : ¬ List.isPrefixOf [a] (x :: xs) = true := by
          simp [List.isPrefixOf]
          intro h
          exact hx h.symm
        rw [if_neg hpre]
        intro hmem
        rcases List.mem_cons.mp hmem with h1 | h2
        · exact hx h1.symm
        · exact ih (Nat.le_of_succ_le_succ hf) h2

theorem replaceAll_single_not_mem {a b : Char} (hab : a ≠ b) (l : List Char) :
    a ∉ replaceAll [a] [b] l :=
  replaceAllFuel_single_not_mem hab (Nat.le_refl _)

theorem replaceAllFuel_single_id {a b : Char} {f : Nat} {l : List Char}
    (h : a ∉ l) : replaceAllFuel [a] [b] f l = l := by
  induction f generalizing l with
  | zero => cases l <;> simp [replaceAllFuel]
  | succ f ih =>
    cases l with
    | nil => simp [replaceAllFuel]
    | cons x xs =>
      have hx : x ≠ a := fun hxa => h (hxa ▸ List.mem_cons_self x xs)
      have hpre : ¬ List.isPrefixOf [a] (x :: xs) = true := by
        simp [List.isPrefixOf]
        intro h2
        exact hx h2.symm
      simp only [replaceAllFuel, if_neg hpre]
      rw [ih (fun hmem => h (List.mem_cons_of_mem x hmem))]

theorem replaceAll_single_id {a b : Char} {l : List Char} (h : a ∉ l) :
    replaceAll [a] [b] l = l :=
  replaceAllFuel_single_id h

theorem asciiFilterGo_mem {b : Bool} {l : List Char} {c : Char}
    (h : c ∈ asciiFilterGo b l) : c.toNat ≤ 0x7F := by
  induction l generalizing b with
  | nil => simp [asciiFilterGo] at h
  | cons x xs ih =>
    simp only [asciiFilterGo] at h
    by_cases hx : 0x7F < x.toNat
    · rw [if_pos hx] at h
      by_cases hb : b
      · rw [if_pos hb] at h; exact ih h
      · rw [if_neg hb] at h
        rcases List.mem_cons.mp h with h1 | h2
        · subst h1; decide
        · exact ih h2
    · rw [if_neg hx] at h
      rcases List.mem_cons.mp h with h1 | h2
      · subst h1; omega
      · exact ih h2

theorem asciiFilterGo_id {b : Bool} {l : List Char}
    (h : ∀ c ∈ l, c.toNat ≤ 0x7F) : asciiFilterGo b l = l := by
  induction l generalizing b with
  | nil => simp [asciiFilterGo]
  | cons x xs ih =>
    have hx : ¬ 0x7F < x.toNat := by
      have := h x (List.mem_cons_self x xs)
      omega
    simp only [asciiFilterGo, if_neg hx]
    rw [ih (fun c hc => h c (List.mem_cons_of_mem x hc))]

theorem collapseGo_mem {st : WSState} {l : List Char} {c : Char}
    (h : c ∈ collapseGo st l) :
    c ∈ l ∨ c = ' ' ∨ (∃ d, st = WSState.one d ∧ c = d) := by
  induction l generalizing st with
  | nil =>
    cases st with
    | clear => simp [collapseGo] at h
    | one d =>
      simp [collapseGo] at h
      exact Or.inr (Or.inr ⟨d, rfl, h⟩)
    | many =>
      simp [collapseGo] at h
      exact Or.inr (Or.inl h)
  | cons x xs ih =>
    cases st with
    | clear =>
      simp only [collapseGo] at h
      by_cases hx : isPySpace x
      · rw [if_pos hx] at h
        rcases ih h with h1 | h2 | ⟨d, hd, hc⟩
        · exact Or.inl (List.mem_cons_of_mem x h1)
        · exact Or.inr (Or.inl h2)
        · cases hd; exact Or.inl (hc ▸ List.mem_cons_self x xs)
      · rw [if_neg hx] at h
        rcases List.mem_cons.mp h with h1 | h2
        · exact Or.inl (h1 ▸ List.mem_cons_self x xs)
        · rcases ih h2 with h3 | h4 | ⟨d, hd, _⟩
          · exact Or.inl (List.mem_cons_of_mem x h3)
          · exact Or.inr (Or.inl h4)
          · cases hd
    | one e =>
      simp only [collapseGo] at h
      by_cases hx : isPySpace x
      · rw [if_pos hx] at h
        rcases ih h with h1 | h2 | ⟨d, hd, _⟩
        · exact Or.inl (List.mem_cons_of_mem x h1)
        · exact Or.inr (Or.inl h2)
        · cases hd
      · rw [if_neg hx] at h
        rcases List.mem_cons.mp h with h1 | h2
        · exact Or.inr (Or.inr ⟨e, rfl, h1⟩)
        · rcases List.mem_cons.mp h2 with h3 | h4
          · exact Or.inl (h3 ▸ List.mem_cons_self x xs)
          · rcases ih h4 with h5 | h6 | ⟨d, hd, _⟩
            · exact Or.inl (List.mem_cons_of_mem x h5)
            · exact Or.inr (Or.inl h6)
            · cases hd
    | many =>
      simp only [collapseGo] at h
      by_cases hx : isPySpace x
      · rw [if_pos hx] at h
        rcases ih h with h1 | h2 | ⟨d, hd, _⟩
        · exact Or.inl (List.mem_cons_of_mem x h1)
        · exact Or.inr (Or.inl h2)
        · cases hd
      · rw [if_neg hx] at h
        rcases List.mem_cons.mp h with h1 | h2
        · exact Or.inr (Or.inl h1)
        · rcases List.mem_cons.mp h2 with h3 | h4
          · exact Or.inl (h3 ▸ List.mem_cons_self x xs)
          · rcases ih h4 with h5 | h6 | ⟨d, hd, _⟩
            · exact Or.inl (List.mem_cons_of_mem x h5)
            · exact Or.inr (Or.inl h6)
            · cases hd

theorem collapseWS_mem {l : List Char} {c : Char} (h : c ∈ collapseWS l) :
    c ∈ l ∨ c = ' ' := by
  rcases collapseGo_mem h with h1 | h2 | ⟨d, hd, _⟩
  · exact Or.inl h1
  · exact Or.inr h2
  · cases hd

theorem noDoubleWS_tail {x : Char} {xs : List Char}
    (h : noDoubleWS (x :: xs) = true) : noDoubleWS xs = true := by
  cases xs with
  | nil => rfl
  | cons d ds =>
    simp only [noDoubleWS, Bool.and_eq_true] at h
    exact h.2

theorem collapse_aux (l : List Char) (h : noDoubleWS l = true) :
    collapseGo WSState.clear l = l ∧
      (∀ c x xs, l = x :: xs → isPySpace x = false →
        collapseGo (WSState.one c) l = c :: l) := by
  induction l with
  | nil => exact ⟨rfl, fun c x xs hx => by cases hx⟩
  | cons x xs ih =>
    have hx2 := ih (noDoubleWS_tail h)
    constructor
    · by_cases hx : isPySpace x
      · simp only [collapseGo, if_pos hx]
        cases xs with
        | nil => rfl
        | cons d ds =>
          have hd : isPySpace d = false := by
            simp only [noDoubleWS, Bool.and_eq_true, Bool.not_eq_eq_eq_not,
              Bool.not_true, Bool.and_eq_false_iff] at h
            rcases h.1 with h1 | h1
            · rw [h1] at hx; cases hx
            · exact h1
          exact hx2.2 x d ds rfl hd
      · simp only [collapseGo, if_neg hx]
        rw [hx2.1]
    · intro c z zs hz hzws
      cases hz
      simp only [collapseGo]
      rw [if_neg (by simp [hzws]), hx2.1]

theorem collapseWS_id {l : List Char} (h : noDoubleWS l = true) :
    collapseWS l = l :=
  (collapse_aux l h).1

theorem dropWhile_head_false {p : Char → Bool} {l : List Char} {c : Char} {r : List Char}
    (h : l.dropWhile p = c :: r) : p c = false := by
  induction l with
  | nil => cases h
  | cons x xs ih =>
    rw [List.dropWhile_cons] at h
    by_cases hx : p x = true
    · rw [if_pos hx] at h
      exact ih h
    · rw [if_neg hx] at h
      cases h
      exact Bool.eq_false_iff.mpr hx

theorem pyStripL_subset {l : List Char} : pyStripL l ⊆ l := by
  intro c hc
  unfold pyStripL at hc
  rw [List.mem_reverse] at hc
  have h1 := (List.dropWhile_suffix isPySpace).subset hc
  rw [List.mem_reverse] at h1
  exact (List.dropWhile_suffix isPySpace).subset h1

theorem pyStripL_right_id {l : List Char} {c : Char}
    (hlast : l.getLast? = some c) (hc : isPySpace c = false) :
    pyStripL l = l.dropWhile isPySpace := by
  unfold pyStripL
  rcases ha : l.dropWhile isPySpace with _ | ⟨x, xs⟩
  · simp
  · rcases (List.dropWhile_suffix (l := l) isPySpace) with ⟨t, ht⟩
    have hlast2 : (x :: xs).getLast? = some c := by
      have h3 : (t ++ (x :: xs)).getLast? = some c := by
        rw [ha] at ht
        rw [ht]
        exact hlast
      rw [List.getLast?_append] at h3
      cases hgl : (x :: xs).getLast? with
      | none =>
        have h4 : (x :: xs).getLast?.isSome = true := List.getLast?_isSome.mpr (by simp)
        rw [hgl] at h4
        cases h4
      | some d =>
        rw [hgl] at h3
        simp only [Option.or] at h3
        rw [h3]
    have hrev : (x :: xs).reverse.head? = some c := by
      rw [List.head?_reverse]
      exact hlast2
    rcases hr : (x :: xs).reverse with _ | ⟨z, zs⟩
    · rw [hr] at hrev
      cases hrev
    · rw [hr] at hrev
      simp only [List.head?_cons, Option.some.injEq] at hrev
      subst hrev
      rw [List.dropWhile_cons, if_neg (by simp [hc]), ← hr, List.reverse_reverse]

theorem preSentinelL_getLast (nfkd : List Char → List Char) (l : List Char) :
    (preSentinelL nfkd l).getLast? = some '.' := by
  unfold preSentinelL
  rw [List.getLast?_append]
  have h1 : sentinel.getLast? = some '.' := by decide
  rw [h1]
  rfl

theorem cleanStepsL_chars (nfkd : List Char → List Char) (l : List Char) :
    ∀ c ∈ cleanStepsL nfkd l,
      c.toNat ≤ 0x7F ∧ c ≠ '\n' ∧ c ≠ '\t' ∧ c ≠ '\r' ∧ c ≠ '-' := by
  intro c hc
  unfold cleanStepsL preSentinelL at hc
  have h8 := pyStripL_subset hc
  rcases List.mem_append.mp h8 with h7 | hsent
  · have k1 : ∀ d ∈ replaceAll [ '\n'] [ ' '] (asciiFilterL (nfkd (removeTagsL l))),
        d.toNat ≤ 0x7F ∧ d ≠ '\n' := by
      intro d hd
      refine ⟨?_, fun he => replaceAll_single_not_mem (by decide) _ (he ▸ hd)⟩
      rcases replaceAll_mem hd with h | h
      · exact asciiFilterGo_mem h
      · rw [List.mem_singleton] at h
        subst h
        decide
    have k2 : ∀ d ∈ replaceAll [ '\t'] [ ' ']
        (replaceAll [ '\n'] [ ' '] (asciiFilterL (nfkd (removeTagsL l)))),
        d.toNat ≤ 0x7F ∧ d ≠ '\n' ∧ d ≠ '\t' := by
      intro d hd
      have hne : d ≠ '\t' := fun he => replaceAll_single_not_mem (by decide) _ (he ▸ hd)
      rcases replaceAll_mem hd with h | h
      · exact ⟨(k1 d h).1, (k1 d h).2, hne⟩
      · rw [List.mem_singleton] at h
        subst h
        exact ⟨by decide, by decide, hne⟩
    have k3 : ∀ d ∈ replaceAll [ '\r'] [ ' '] (replaceAll [ '\t'] [ ' ']
        (replaceAll [ '\n'] [ ' '] (asciiFilterL (nfkd (removeTagsL l))))),
        d.toNat ≤ 0x7F ∧ d ≠ '\n' ∧ d ≠ '\t' ∧ d ≠ '\r' := by
      intro d hd
      have hne : d ≠ '\r' := fun he => replaceAll_single_not_mem (by decide) _ (he ▸ hd)
      rcases replaceAll_mem hd with h | h
      · exact ⟨(k2 d h).1, (k2 d h).2.1, (k2 d h).2.2, hne⟩
      · rw [List.mem_singleton] at h
        subst h
        exact ⟨by decide, by decide, by decide, hne⟩
    have k4 : ∀ d ∈ replaceAll [ '&', 'n', 'b', 's', 'p', ';'] [ ' ']
        (replaceAll [ '\r'] [ ' '] (replaceAll [ '\t'] [ ' ']
          (replaceAll [ '\n'] [ ' '] (asciiFilterL (nfkd (removeTagsL l)))))),
        d.toNat ≤ 0x7F ∧ d ≠ '\n' ∧ d ≠ '\t' ∧ d ≠ '\r' := by
      intro d hd
      rcases replaceAll_mem hd with h | h
      · exact k3 d h
      · rw [List.mem_singleton] at h
        subst h
        exact ⟨by decide, by decide, by decide, by decide⟩
    have k5 : ∀ d ∈ replaceAll [ '&', 'a', 'm', 'p', ';'] [ '&']
        (replaceAll [ '&', 'n', 'b', 's', 'p', ';'] [ ' ']
          (replaceAll [ '\r'] [ ' '] (replaceAll [ '\t'] [ ' ']
            (replaceAll [ '\n'] [ ' '] (asciiFilterL (nfkd (removeTagsL l))))))),
        d.toNat ≤ 0x7F ∧ d ≠ '\n' ∧ d ≠ '\t' ∧ d ≠ '\r' := by
      intro d hd
      rcases replaceAll_mem hd with h | h
      · exact k4 d h
      · rw [List.mem_singleton] at h
        subst h
        exact ⟨by decide, by decide, by decide, by decide⟩
    have k6 : ∀ d ∈ replaceAll [ '-'] [ ' '] (replaceAll [ '&', 'a', 'm', 'p', ';'] [ '&']
        (replaceAll [ '&', 'n', 'b', 's', 'p', ';'] [ ' ']
          (replaceAll [ '\r'] [ ' '] (replaceAll [ '\t'] [ ' ']
            (replaceAll [ '\n'] [ ' '] (asciiFilterL (nfkd (removeTagsL l)))))))),
        d.toNat ≤ 0x7F ∧ d ≠ '\n' ∧ d ≠ '\t' ∧ d ≠ '\r' ∧ d ≠ '-' := by
      intro d hd
      have hne : d ≠ '-' := fun he => replaceAll_single_not_mem (by decide) _ (he ▸ hd)
      rcases replaceAll_mem hd with h | h
      · exact ⟨(k5 d h).1, (k5 d h).2.1, (k5 d h).2.2.1, (k5 d h).2.2.2, hne⟩
      · rw [List.mem_singleton] at h
        subst h
        exact ⟨by decide, by decide, by decide, by decide, hne⟩
    rcases collapseWS_mem h7 with h6 | hsp
    · exact k6 c h6
    · subst hsp
      exact ⟨by decide, by decide, by decide, by decide, by decide⟩
  · simp only [sentinel, List.mem_cons, List.not_mem_nil, or_false] at hsent
    rcases hsent with h | h | h | h | h | h
    all_goals (subst h; exact ⟨by decide, by decide, by decide, by decide, by decide⟩)

theorem cleanStepsL_eq_dropWhile (nfkd : List Char → List Char) (l : List Char) :
    cleanStepsL nfkd l = (preSentinelL nfkd l).dropWhile isPySpace :=
  pyStripL_right_id (preSentinelL_getLast nfkd l) (by decide)

theorem cleanStepsL_ne_nil (nfkd : List Char → List Char) (l : List Char) :
    cleanStepsL nfkd l ≠ [] := by
  rw [cleanStepsL_eq_dropWhile]
  intro h
  rw [List.dropWhile_eq_nil_iff] at h
  have hdot : ('.' : Char) ∈ preSentinelL nfkd l := by
    unfold preSentinelL
    exact List.mem_append.mpr (Or.inr (by decide))
  have := h '.' hdot
  exact absurd this (by decide)

theorem pyStripL_head_false {l : List Char} {c : Char} {r : List Char}
    (h : pyStripL l = c :: r) : isPySpace c = false := by
  rcases (List.dropWhile_suffix (l := (l.dropWhile isPySpace).reverse) isPySpace) with ⟨t, ht⟩
  have ha : pyStripL l ++ t.reverse = l.dropWhile isPySpace := by
    unfold pyStripL
    have h2 := congrArg List.reverse ht
    rw [List.reverse_append, List.reverse_reverse] at h2
    exact h2
  rw [h, List.cons_append] at ha
  exact dropWhile_head_false ha.symm

theorem cleanStepsL_second_pass (nfkd : List Char → List Char) (y : List Char)
    (hnfkd : nfkd y = y)
    (hascii : ∀ c ∈ y, c.toNat ≤ 0x7F)
    (hn : '\n' ∉ y) (ht : '\t' ∉ y) (hr : '\r' ∉ y) (hh : '-' ∉ y)
    (htag : removeTagsL y = y)
    (hnbsp : replaceAll [ '&', 'n', 'b', 's', 'p', ';'] [ ' '] y = y)
    (hamp : replaceAll [ '&', 'a', 'm', 'p', ';'] [ '&'] y = y)
    (hdw : noDoubleWS y = true)
    (hhead : ∃ ch rest, y = ch :: rest ∧ isPySpace ch = false) :
    cleanStepsL nfkd y = y ++ sentinel := by
  have hpre : preSentinelL nfkd y = y ++ sentinel := by
    unfold preSentinelL asciiFilterL
    rw [htag, hnfkd, asciiFilterGo_id hascii, replaceAll_single_id hn,
      replaceAll_single_id ht, replaceAll_single_id hr, hnbsp, hamp,
      replaceAll_single_id hh, collapseWS_id hdw]
  have hgl : (y ++ sentinel).getLast? = some '.' := by
    rw [List.getLast?_append]
    have h1 : sentinel.getLast? = some '.' := by decide
    rw [h1]
    rfl
  unfold cleanStepsL
  rw [hpre, pyStripL_right_id hgl (by decide)]
  rcases hhead with ⟨ch, rest, hy, hch⟩
  rw [hy, List.cons_append, List.dropWhile_cons, if_neg (by simp [hch])]

/-! Bridging equations between the string-level and list-level forms of
the Normalizer. -/

theorem data_mk (l : List Char) : (⟨l⟩ : String).data = l := rfl

theorem cleanSteps_eq_mk (nfkd : List Char → List Char) (x : String) :
    cleanSteps nfkd x = ⟨cleanStepsL nfkd x.data⟩ := rfl

theorem data_cleanSteps (nfkd : List Char → List Char) (x : String) :
    (cleanSteps nfkd x).data = cleanStepsL nfkd x.data :=
  (congrArg String.data (cleanSteps_eq_mk nfkd x)).trans (data_mk _)

theorem pyStrip_mk (l : List Char) : pyStrip ⟨l⟩ = ⟨pyStripL l⟩ := rfl

theorem clean_and_chain_eq (ext : String → Option String)
    (nfkd : List Char → List Char) (t : String) :
    clean_and_chain ext nfkd t = pyStrip ⟨preSentinelL nfkd ((ext t).getD t).data⟩ := rfl

/-! Claim theorems for the Normalizer (clean_and_chain). -/

set_option maxHeartbeats 1000000 in
/-- C2, counterexample.  The claim states that normalization is idempotent
up to one extra appended sentinel.  On the input consisting of the
letters a and b followed by a hyphen, the first pass turns the hyphen
into a space, so the sentinel append produces a double space, and the
second pass collapses that double space: the whitespace-collapse
substitution fires again on the already-clean text.  Both passes run the
HTML-extraction and NFKD collaborators as the identity, which is their
behaviour on these plain ASCII texts. -/
theorem c2_idempotent_counterexample :
    clean_and_chain (fun s => some s) (fun l => l)
        (clean_and_chain (fun s => some s) (fun l => l) "ab-")
      ≠ clean_and_chain (fun s => some s) (fun l => l) "ab-" ++ " ....." := by
  decide

/-- C2, amended.  Re-normalizing an output of the Normalizer appends
exactly one more sentinel and changes nothing else, provided the second
pass runs the HTML extraction as the identity on the cleaned text, NFKD
fixes ASCII strings, no residual tag pattern or nbsp or amp entity
survives in the cleaned text, and the cleaned text contains no two
adjacent whitespace characters (the condition violated by the
counterexample, where the sentinel append created a double space). -/
theorem c2_idempotent_amended (ext : String → Option String)
    (nfkd : List Char → List Char)
    (hnfkd : ∀ l, (∀ c ∈ l, c.toNat ≤ 0x7F) → nfkd l = l) (x : String)
    (hext : ext (cleanSteps nfkd x) = some (cleanSteps nfkd x))
    (htag : removeTagsL (cleanSteps nfkd x).data = (cleanSteps nfkd x).data)
    (hnbsp : replaceAll [ '&', 'n', 'b', 's', 'p', ';'] [ ' '] (cleanSteps nfkd x).data
      = (cleanSteps nfkd x).data)
    (hamp : replaceAll [ '&', 'a', 'm', 'p', ';'] [ '&'] (cleanSteps nfkd x).data
      = (cleanSteps nfkd x).data)
    (hdw : noDoubleWS (cleanSteps nfkd x).data = true) :
    clean_and_chain ext nfkd (cleanSteps nfkd x) = cleanSteps nfkd x ++ " ....." := by
  have hd := data_cleanSteps nfkd x
  rw [hd] at htag hnbsp hamp hdw
  have hchars := cleanStepsL_chars nfkd x.data
  have hascii : ∀ c ∈ cleanStepsL nfkd x.data, c.toNat ≤ 0x7F :=
    fun c hc => (hchars c hc).1
  have hn : '\n' ∉ cleanStepsL nfkd x.data :=
    fun hmem => absurd rfl (hchars _ hmem).2.1
  have hti : '\t' ∉ cleanStepsL nfkd x.data :=
    fun hmem => absurd rfl (hchars _ hmem).2.2.1
  have hri : '\r' ∉ cleanStepsL nfkd x.data :=
    fun hmem => absurd rfl (hchars _ hmem).2.2.2.1
  have hhi : '-' ∉ cleanStepsL nfkd x.data :=
    fun hmem => absurd rfl (hchars _ hmem).2.2.2.2
  have hhead : ∃ ch rest, cleanStepsL nfkd x.data = ch :: rest ∧ isPySpace ch = false := by
    rcases hy : cleanStepsL nfkd x.data with _ | ⟨ch, rest⟩
    · exact absurd hy (cleanStepsL_ne_nil nfkd x.data)
    · refine ⟨ch, rest, rfl, ?_⟩
      have h2 : pyStripL (preSentinelL nfkd x.data) = ch :: rest := hy
      exact pyStripL_head_false h2
  have hsecond := cleanStepsL_second_pass nfkd (cleanStepsL nfkd x.data)
    (hnfkd _ hascii) hascii hn hti hri hhi htag hnbsp hamp hdw hhead
  rw [clean_and_chain_eq, hext, Option.getD_some, pyStrip_mk]
  apply String.ext
  rw [data_mk, String.data_append, hd]
  have hsent : (" ....." : String).data = sentinel := by decide
  rw [hsent]
  show cleanStepsL nfkd (cleanStepsL nfkd x.data) = _
  exact hsecond

/-- C2, amended, witness at a concrete input. -/
theorem c2_idempotent_amended_witness :
    clean_and_chain (fun s => some s) (fun l => l)
        (cleanSteps (fun l => l) "hello.")
      = cleanSteps (fun l => l) "hello." ++ " ....." :=
  c2_idempotent_amended (fun s => some s) (fun l => l) (fun _ _ => rfl) "hello."
    rfl (by decide) (by decide) (by decide) (by decide)

/-- C3, counterexample.  The claim states that in step 5 every occurrence
of the amp entity is replaced by a single space, so the output never
contains an ampersand in its place.  The code instead replaces the amp
entity by a literal ampersand: on the input x-amp-entity-y the cleaned
output is the three characters x ampersand y followed by the sentinel,
and it contains an ampersand. -/
theorem c3_amp_counterexample :
    cleanSteps (fun l => l) "x&amp;y" = "x&y ....." ∧
      '&' ∈ (cleanSteps (fun l => l) "x&amp;y").data := by
  decide

/-- C3, amended.  Newline, tab, carriage return and literal hyphens are
indeed eliminated by the substitution chain (none of them ever occurs in
a Normalizer output, having been replaced by spaces), and the nbsp
entity is replaced by a space; the amp entity however is replaced by a
literal ampersand, not by a space. -/
theorem c3_step5_amended :
    (∀ (nfkd : List Char → List Char) (x : String),
      (cleanSteps nfkd x).data.all
        (fun c => decide (c ≠ '\n' ∧ c ≠ '\t' ∧ c ≠ '\r' ∧ c ≠ '-')) = true) ∧
    cleanSteps (fun l => l) "a&nbsp;b" = "a b ....." ∧
    cleanSteps (fun l => l) "a &amp; b" = "a & b ....." := by
  refine ⟨?_, by decide, by decide⟩
  intro nfkd x
  rw [data_cleanSteps]
  refine List.all_eq_true.mpr (fun c hc => decide_eq_true ?_)
  have h := cleanStepsL_chars nfkd x.data c hc
  exact ⟨h.2.1, h.2.2.1, h.2.2.2.1, h.2.2.2.2⟩

/-- C4, counterexample.  The claim states that the Normalizer output
contains no codepoint outside the printable ASCII range, control
characters such as vertical tab included.  The substitution of step 4
only replaces codepoints above 0x7F, so an isolated vertical tab (0x0B,
below the printable range) survives normalization: on the input a,
vertical tab, b the output still contains the vertical tab. -/
theorem c4_ascii_counterexample :
    Char.ofNat 11 ∈ (cleanSteps (fun l => l) ⟨[ 'a', Char.ofNat 11, 'b']⟩).data ∧
      (Char.ofNat 11).toNat < 0x20 := by
  decide

/-- C4, amended.  Every character of a Normalizer output lies in the
ASCII range 0x00 to 0x7F and is never a newline, tab or carriage return;
other ASCII control characters such as vertical tab or form feed may
survive when not adjacent to another whitespace character. -/
theorem c4_ascii_amended (nfkd : List Char → List Char) (x : String) :
    (cleanSteps nfkd x).data.all
      (fun c => decide (c.toNat ≤ 0x7F ∧ c ≠ '\n' ∧ c ≠ '\t' ∧ c ≠ '\r')) = true := by
  rw [data_cleanSteps]
  refine List.all_eq_true.mpr (fun c hc => decide_eq_true ?_)
  have h := cleanStepsL_chars nfkd x.data c hc
  exact ⟨h.1, h.2.1, h.2.2.1, h.2.2.2.1⟩

/-- C5, counterexample.  The claim states that an exception raised during
step 1 makes clean_and_chain return the pre-step-1 input verbatim with no
sentinel and no later cleanup.  In the code the bare except around step 1
swallows the exception and the remaining steps still run: with a raising
extraction step and the real second block, the input a-hyphen-b comes out
fully cleaned with the sentinel appended, not verbatim. -/
theorem c5_fallback_counterexample :
    clean_and_chain_gen (fun _ => none)
        (fun s => some ⟨preSentinelL (fun l => l) s.data⟩) "a-b" ≠ "a-b" ∧
      clean_and_chain_gen (fun _ => none)
        (fun s => some ⟨preSentinelL (fun l => l) s.data⟩) "a-b" = "a b ....." := by
  decide

/-- C5, amended.  An exception in the second try block (steps 2 to 7)
returns the post-extraction text verbatim, with no sentinel and no strip,
which coincides with the original input only when step 1 left the text
unchanged; an exception in step 1 is swallowed and the function behaves
exactly as if the extraction had returned its input unchanged, so all
later cleanup steps still run and the sentinel is still appended. -/
theorem c5_fallback_amended (ext rest : String → Option String)
    (nfkd : List Char → List Char) (t : String) :
    clean_and_chain_gen ext (fun _ => none) t = (ext t).getD t ∧
      clean_and_chain_gen (fun _ => none) rest t
        = clean_and_chain_gen (fun s => some s) rest t ∧
      clean_and_chain (fun _ => none) nfkd t = cleanSteps nfkd t :=
  ⟨rfl, rfl, rfl⟩

/-! Lemmas and claim theorems for the Segmenter (merge_paragraphs). -/

theorem append_space_ne_empty (a : String) : a ++ " " ≠ "" := by
  intro h
  have h2 := congrArg String.data h
  rw [String.data_append] at h2
  have h3 : ((" " : String)).data = [' '] := rfl
  rw [h3] at h2
  rcases List.append_eq_nil.mp h2 with ⟨_, h4⟩
  cases h4

theorem mergeGo_length (lines : List String) : ∀ b : String,
    (mergeGo lines b).length
      = termCount lines + tailFlag (lastNonEmptyStripped lines) b := by
  induction lines with
  | nil =>
    intro b
    by_cases hb : b = "" <;>
      simp [mergeGo, termCount, lastNonEmptyStripped, tailFlag, hb]
  | cons l ls ih =>
    intro b
    by_cases hl : pyStrip l = ""
    · have hm : mergeGo (l :: ls) b = mergeGo ls b := by
        simp only [mergeGo]
        rw [if_pos hl]
      rw [hm, ih b]
      have ht : termCount (l :: ls) = termCount ls := by
        simp [termCount, hl]
      have hn : lastNonEmptyStripped (l :: ls) = lastNonEmptyStripped ls := by
        simp only [lastNonEmptyStripped]
        cases lastNonEmptyStripped ls with
        | none => rw [if_pos hl]
        | some s => rfl
      rw [ht, hn]
    · by_cases hterm : isTermB (pyStrip l) = true
      · have hm : mergeGo (l :: ls) b
            = pyStrip (b ++ pyStrip l ++ " ") :: mergeGo ls "" := by
          simp only [mergeGo]
          rw [if_neg hl, if_pos hterm]
        rw [hm, List.length_cons, ih ""]
        have ht : termCount (l :: ls) = 1 + termCount ls := by
          simp [termCount, hl, hterm, Nat.add_comm]
        rw [ht]
        cases h2 : lastNonEmptyStripped ls with
        | some s =>
          have hn : lastNonEmptyStripped (l :: ls) = some s := by
            simp [lastNonEmptyStripped, h2]
          rw [hn]
          simp only [tailFlag]
          omega
        | none =>
          have hn : lastNonEmptyStripped (l :: ls) = some (pyStrip l) := by
            simp [lastNonEmptyStripped, h2, hl]
          rw [hn]
          simp [tailFlag, hterm]
          omega
      · have hm : mergeGo (l :: ls) b = mergeGo ls (b ++ pyStrip l ++ " ") := by
          simp only [mergeGo]
          rw [if_neg hl, if_neg hterm]
        rw [hm, ih (b ++ pyStrip l ++ " ")]
        have ht : termCount (l :: ls) = termCount ls := by
          simp [termCount, hterm]
        rw [ht]
        cases h2 : lastNonEmptyStripped ls with
        | some s =>
          have hn : lastNonEmptyStripped (l :: ls) = some s := by
            simp [lastNonEmptyStripped, h2]
          rw [hn]
          simp only [tailFlag]
        | none =>
          have hn : lastNonEmptyStripped (l :: ls) = some (pyStrip l) := by
            simp [lastNonEmptyStripped, h2, hl]
          rw [hn]
          simp [tailFlag, hterm, append_space_ne_empty]

/-- C8.  The number of paragraphs returned by merge_paragraphs equals the
number of lines that are nonempty after stripping and end in a period,
exclamation mark or question mark, plus one exactly when a non-terminated
tail remains in the buffer at end of input (that is, when the last
nonempty stripped line is not sentence-terminal). -/
theorem c8_merge_count (lines : List String) :
    (merge_paragraphs lines).length
      = termCount lines + (if hasTail lines then 1 else 0) := by
  rw [merge_paragraphs, mergeGo_length lines ""]
  unfold hasTail
  cases h2 : lastNonEmptyStripped lines with
  | none => simp [tailFlag]
  | some s => by_cases ht : isTermB s <;> simp [tailFlag, ht]

/-! Lemmas and claim theorems for the Language Filter and the Similarity
Deduplicator. -/

theorem keepString_iff (tz : String → List String) (lex : List String) (s : String) :
    keepString tz lex s = true
      ↔ ∃ t ∈ tz s, pyLower t ∈ lex ∧ 3 < t.length := by
  unfold keepString
  rw [List.any_eq_true]
  constructor
  · rintro ⟨t, ht, hcond⟩
    rw [Bool.and_eq_true, decide_eq_true_eq] at hcond
    refine ⟨t, ht, ?_, hcond.2⟩
    have := hcond.1
    simpa using this
  · rintro ⟨t, ht, hmem, hlen⟩
    refine ⟨t, ht, ?_⟩
    rw [Bool.and_eq_true, decide_eq_true_eq]
    exact ⟨by simpa using hmem, hlen⟩

theorem mem_filter_english_iff (tz : String → List String) (lex : List String)
    (strs : List String) (s : String) :
    s ∈ filter_strings_with_english_words tz lex strs
      ↔ s ∈ strs ∧ (50 < s.length ∨ ∃ t ∈ tz s, pyLower t ∈ lex ∧ 3 < t.length) := by
  induction strs with
  | nil => simp [filter_strings_with_english_words]
  | cons a rest ih =>
    simp only [filter_strings_with_english_words]
    by_cases h50 : 50 < a.length
    · rw [if_pos h50]
      simp only [List.mem_cons]
      constructor
      · rintro (rfl | h)
        · exact ⟨Or.inl rfl, Or.inl h50⟩
        · rcases ih.mp h with ⟨h1, h2⟩
          exact ⟨Or.inr h1, h2⟩
      · rintro ⟨rfl | h1, h2⟩
        · exact Or.inl rfl
        · exact Or.inr (ih.mpr ⟨h1, h2⟩)
    · rw [if_neg h50]
      by_cases hk : keepString tz lex a = true
      · rw [if_pos hk]
        simp only [List.mem_cons]
        constructor
        · rintro (rfl | h)
          · exact ⟨Or.inl rfl, Or.inr ((keepString_iff tz lex s).mp hk)⟩
          · rcases ih.mp h with ⟨h1, h2⟩
            exact ⟨Or.inr h1, h2⟩
        · rintro ⟨rfl | h1, h2⟩
          · exact Or.inl rfl
          · exact Or.inr (ih.mpr ⟨h1, h2⟩)
      · rw [if_neg hk, ih]
        simp only [List.mem_cons]
        constructor
        · rintro ⟨h1, h2⟩
          exact ⟨Or.inr h1, h2⟩
        · rintro ⟨rfl | h1, h2⟩
          · rcases h2 with h2 | h2
            · exact absurd h2 h50
            · exact absurd ((keepString_iff tz lex s).mpr h2) hk
          · exact ⟨h1, h2⟩

/-- C7.  The Language Filter retains every string longer than 50
characters unconditionally, and retains a string of at most 50 characters
exactly when some token produced by the tokenizer, lower-cased, lies in
the lexicon and is longer than 3 characters; all other short strings are
dropped.  Tokenizer and lexicon are the abstract external collaborators
of filter_strings_with_english_words. -/
theorem c7_language_filter (tz : String → List String) (lex : List String)
    (strs : List String) (s : String) :
    s ∈ filter_strings_with_english_words tz lex strs
      ↔ s ∈ strs ∧ (50 < s.length ∨ ∃ t ∈ tz s, pyLower t ∈ lex ∧ 3 < t.length) :=
  mem_filter_english_iff tz lex strs s

/-- C6.  Every member of every similarity cluster of size at least 3 is
returned in the removal set of find_similar_strings, and no such member
survives into the kept list.  The similarity score, tokenizer and lexicon
are abstract parameters; clustering is first-match-wins with an inclusive
threshold, as in the source. -/
theorem c6_dedup_clusters (sim : String → String → Int) (tz : String → List String)
    (lex : List String) (strs : List String) (threshold : Int)
    (g : List String) (m : String)
    (hg : g ∈ similar_groups sim threshold strs) (h3 : 3 ≤ g.length) (hm : m ∈ g) :
    m ∈ (find_similar_strings sim tz lex strs threshold).2 ∧
      m ∉ (find_similar_strings sim tz lex strs threshold).1 := by
  have hrem : m ∈ ((similar_groups sim threshold strs).filter
      (fun g2 => decide (3 ≤ g2.length))).flatten :=
    List.mem_flatten.mpr ⟨g, List.mem_filter.mpr ⟨hg, decide_eq_true h3⟩, hm⟩
  constructor
  · exact hrem
  · intro hkept
    have h1 := ((mem_filter_english_iff tz lex _ m).mp hkept).1
    have h2 := (List.mem_filter.mp h1).2
    rw [Bool.not_eq_eq_eq_not, Bool.not_true] at h2
    have h4 : m ∉ ((similar_groups sim threshold strs).filter
        (fun g2 => decide (3 ≤ g2.length))).flatten := by
      intro hmem
      have h5 : ((similar_groups sim threshold strs).filter
          (fun g2 => decide (3 ≤ g2.length))).flatten.contains m = true := by
        simpa using hmem
      rw [h5] at h2
      cases h2
    exact h4 hrem

/-- C6, witness.  At the spec example the Page 12 cluster has size 3, its
member is removed and does not survive into the kept list. -/
theorem c6_dedup_clusters_witness :
    "Page 12" ∈ (find_similar_strings (fun a b => if a = b then 100 else 0)
        (fun s => [s]) ["story"]
        ["Page 12", "Page 12", "Page 12",
          "The story begins here and continues for a while."] 60).2 ∧
      "Page 12" ∉ (find_similar_strings (fun a b => if a = b then 100 else 0)
        (fun s => [s]) ["story"]
        ["Page 12", "Page 12", "Page 12",
          "The story begins here and continues for a while."] 60).1 :=
  c6_dedup_clusters (fun a b => if a = b then 100 else 0) (fun s => [s]) ["story"]
    ["Page 12", "Page 12", "Page 12",
      "The story begins here and continues for a while."] 60
    ["Page 12", "Page 12", "Page 12"] "Page 12"
    (by decide) (by decide) (by decide)

/-! Character-class lemmas used by the malformed-input and spelling
claims. -/

theorem toLower_eq_of_not_letter {c : Char} (h : isAsciiLetter c = false) :
    Char.toLower c = c := by
  have h2 : ¬(c.toNat ≥ 65 ∧ c.toNat ≤ 90) := by
    simp only [isAsciiLetter, Bool.or_eq_false_iff, Bool.and_eq_false_iff,
      decide_eq_false_iff_not, not_le] at h
    omega
  simp only [Char.toLower]
  rw [if_neg h2]

theorem map_toLower_id {l : List Char} (h : ∀ c ∈ l, isAsciiLetter c = false) :
    l.map Char.toLower = l := by
  induction l with
  | nil => rfl
  | cons c cs ih =>
    simp only [List.map_cons]
    rw [toLower_eq_of_not_letter (h c (List.mem_cons_self c cs)),
      ih (fun d hd => h d (List.mem_cons_of_mem c hd))]

theorem pyLower_id_of_no_letters (s : String)
    (h : ∀ c ∈ s.data, isAsciiLetter c = false) : pyLower s = s :=
  String.ext ((data_mk _).trans (map_toLower_id h))

theorem letter_not_pyspace {c : Char} (h : isAsciiLetter c = true) :
    isPySpace c = false := by
  simp only [isAsciiLetter, Bool.or_eq_true, Bool.and_eq_true,
    decide_eq_true_eq] at h
  simp only [isPySpace, Bool.or_eq_false_iff, Bool.and_eq_false_iff,
    decide_eq_false_iff_not, not_le]
  omega

theorem letter_spellAllowed {c : Char} (h : isAsciiLetter c = true) :
    spellAllowed c = true := by
  simp only [isAsciiLetter, Bool.or_eq_true, Bool.and_eq_true,
    decide_eq_true_eq] at h
  simp only [spellAllowed, Bool.or_eq_true, Bool.and_eq_true,
    decide_eq_true_eq]
  omega

/-! Claim theorems for malformed input (C9). -/

/-- C9, counterexample.  The claim states that a punctuation-only unit
with no alphabetic content never survives the Segmenter plus Language
Filter path.  A line of 51 periods is such a unit: the Segmenter emits it
as a paragraph (it ends in a period), and the Language Filter retains it
unconditionally through the longer-than-50-characters bypass, whatever
tokenizer and lexicon are plugged in, so it survives both stages. -/
theorem c9_malformed_counterexample :
    merge_paragraphs [(⟨List.replicate 51 '.'⟩ : String)]
        = [(⟨List.replicate 51 '.'⟩ : String)] ∧
      (⟨List.replicate 51 '.'⟩ : String)
        ∈ filter_strings_with_english_words (fun _ => []) []
            [(⟨List.replicate 51 '.'⟩ : String)] ∧
      (∀ c ∈ (⟨List.replicate 51 '.'⟩ : String).data, isAsciiLetter c = false) := by
  decide

/-- C9, amended.  An empty line sequence yields an empty paragraph list
(no exception is possible, the embedded functions are total), and a
punctuation-only unit of at most 50 characters is dropped by the Language
Filter whenever its tokens contain no ASCII letter and every lexicon word
consists of letters; punctuation-only units longer than 50 characters are
instead retained by the length bypass, as the counterexample shows. -/
theorem c9_malformed_amended :
    merge_paragraphs [] = [] ∧
      ∀ (tz : String → List String) (lex : List String) (s : String),
        s.length ≤ 50 →
        (∀ t ∈ tz s, ∀ c ∈ t.data, isAsciiLetter c = false) →
        (∀ w ∈ lex, ∀ c ∈ w.data, isAsciiLetter c = true) →
        s ∉ filter_strings_with_english_words tz lex [s] := by
  refine ⟨rfl, ?_⟩
  intro tz lex s hlen htok hlex hmem
  rcases (mem_filter_english_iff tz lex [s] s).mp hmem with ⟨_, h2 | h2⟩
  · omega
  · rcases h2 with ⟨t, ht, hmem2, hlen2⟩
    have hid : pyLower t = t := pyLower_id_of_no_letters t (htok t ht)
    rw [hid] at hmem2
    have hlq := hlex t hmem2
    have hlen3 : 3 < t.data.length := hlen2
    cases ht2 : t.data with
    | nil =>
      rw [ht2] at hlen3
      simp at hlen3
    | cons c cs =>
      have hcl := hlq c (by rw [ht2]; exact List.mem_cons_self c cs)
      have hcn := htok t ht c (by rw [ht2]; exact List.mem_cons_self c cs)
      rw [hcl] at hcn
      cases hcn

/-- C9, amended, witness: the three-period unit is dropped by the filter
at a concrete tokenizer and lexicon. -/
theorem c9_malformed_amended_witness :
    merge_paragraphs [] = [] ∧
      "..." ∉ filter_strings_with_english_words (fun s => [s]) ["word"] ["..."] :=
  ⟨c9_malformed_amended.1,
    c9_malformed_amended.2 (fun s => [s]) ["word"] "..."
      (by decide) (by decide) (by decide)⟩

/-! Lemmas for the spelling check over whitespace-joined words. -/

theorem mk_data_eta (s : String) : (⟨s.data⟩ : String) = s :=
  String.ext (data_mk _)

theorem cleanSpellL_id {l : List Char} (h : ∀ c ∈ l, spellAllowed c = true) :
    cleanSpellL l = l := by
  induction l with
  | nil => rfl
  | cons c cs ih =>
    simp only [cleanSpellL, List.map_cons]
    rw [if_pos (h c (List.mem_cons_self c cs))]
    have ih2 := ih (fun d hd => h d (List.mem_cons_of_mem c hd))
    simp only [cleanSpellL] at ih2
    rw [ih2]

theorem joinWords_cons_data (t : String) (ts : List String) (h : ts ≠ []) :
    (joinWords (t :: ts)).data = t.data ++ ' ' :: (joinWords ts).data := by
  cases ts with
  | nil => exact absurd rfl h
  | cons u us =>
    show ((t ++ " ") ++ joinWords (u :: us)).data = _
    rw [String.data_append, String.data_append, List.append_assoc]
    rfl

theorem joinWords_chars (ts : List String)
    (h : ∀ t ∈ ts, ∀ c ∈ t.data, spellAllowed c = true) :
    ∀ c ∈ (joinWords ts).data, spellAllowed c = true := by
  induction ts with
  | nil => intro c hc; cases hc
  | cons t ts ih =>
    cases ts with
    | nil =>
      intro c hc
      exact h t (List.mem_cons_self t []) c hc
    | cons u us =>
      intro c hc
      rw [joinWords_cons_data t (u :: us) (by simp)] at hc
      rcases List.mem_append.mp hc with h1 | h1
      · exact h t (List.mem_cons_self t _) c h1
      · rcases List.mem_cons.mp h1 with h2 | h2
        · subst h2
          decide
        · exact ih (fun x hx => h x (List.mem_cons_of_mem t hx)) c h2

theorem tokAux_append_nonws {t : List Char} (rest : List Char)
    (h : ∀ c ∈ t, isPySpace c = false) :
    tokAux (t ++ rest) = (t ++ (tokAux rest).1, (tokAux rest).2) := by
  induction t with
  | nil => simp
  | cons c cs ih =>
    have hc : isPySpace c = false := h c (List.mem_cons_self c cs)
    simp only [List.cons_append, tokAux, hc, Bool.false_eq_true, if_false,
      List.append_eq]
    rw [ih (fun d hd => h d (List.mem_cons_of_mem c hd))]

theorem tokAux_space (rest : List Char) :
    tokAux (' ' :: rest) = ([], tokFinish (tokAux rest)) := rfl

theorem pyTokens_join (ts : List String) (hne : ts ≠ [])
    (h : ∀ t ∈ ts, t.data ≠ [] ∧ ∀ c ∈ t.data, isPySpace c = false) :
    tokFinish (tokAux (joinWords ts).data) = ts.map String.data := by
  induction ts with
  | nil => exact absurd rfl hne
  | cons t ts ih =>
    cases ts with
    | nil =>
      show tokFinish (tokAux t.data) = [t.data]
      have h1 := tokAux_append_nonws (t := t.data) [] (h t (List.mem_cons_self t [])).2
      rw [List.append_nil] at h1
      rw [h1]
      show tokFinish (t.data ++ [], []) = [t.data]
      rw [List.append_nil]
      unfold tokFinish
      rw [if_neg (by exact (h t (List.mem_cons_self t [])).1)]
    | cons u us =>
      rw [joinWords_cons_data t (u :: us) (by simp)]
      rw [tokAux_append_nonws (' ' :: (joinWords (u :: us)).data)
        (h t (List.mem_cons_self t _)).2]
      rw [tokAux_space]
      have ih2 := ih (by simp) (fun x hx => h x (List.mem_cons_of_mem t hx))
      show tokFinish (t.data ++ [], tokFinish (tokAux (joinWords (u :: us)).data))
        = t.data :: (u :: us).map String.data
      rw [List.append_nil, ih2]
      unfold tokFinish
      rw [if_neg (by exact (h t (List.mem_cons_self t _)).1)]

theorem map_mk_data (ts : List String) :
    (ts.map String.data).map (fun l => (⟨l⟩ : String)) = ts := by
  rw [List.map_map]
  have h : ((fun l => (⟨l⟩ : String)) ∘ String.data) = id :=
    funext (fun s => mk_data_eta s)
  rw [h, List.map_id]

theorem find_misspelled_join (spell : List String) (ts : List String) (hne : ts ≠ [])
    (h : ∀ t ∈ ts, t.data ≠ [] ∧ (∀ c ∈ t.data, spellAllowed c = true)
      ∧ (∀ c ∈ t.data, isPySpace c = false)) :
    find_misspelled_words spell (joinWords ts)
      = ts.filter (fun w => !(spell.contains (pyLower w))) := by
  unfold find_misspelled_words
  have hclean : cleanSpellL (joinWords ts).data = (joinWords ts).data :=
    cleanSpellL_id (joinWords_chars ts (fun t ht => (h t ht).2.1))
  rw [hclean, mk_data_eta]
  unfold pyTokens
  rw [pyTokens_join ts hne (fun t ht => ⟨(h t ht).1, (h t ht).2.2⟩), map_mk_data]

theorem pyLower_append_dot (w : String) : pyLower (w ++ ".") = pyLower w ++ "." := by
  apply String.ext
  have h1 : (pyLower (w ++ ".")).data = (w ++ ".").data.map Char.toLower := data_mk _
  have h2 : (w ++ ".").data = w.data ++ [ '.'] := String.data_append w "."
  have h3 : (pyLower w ++ ("." : String)).data = w.data.map Char.toLower ++ [ '.'] := by
    rw [String.data_append]
    rfl
  rw [h1, h2, h3, List.map_append]
  rfl

/-! Claim theorems for the spelling check and the orchestrator. -/

/-- C10.  The cleaning regex of find_misspelled_words keeps periods and
tokens are split only on whitespace, so a sentence-final period stays
attached to its word: for every dictionary containing the words of the
sentence but not the period-suffixed form of the last word, the sentence
made of correctly spelled words followed by a period-terminated last word
yields exactly that period-suffixed token as misspelled, hence a
nonempty misspelled list, and the orchestrator body consequently calls
the external edit_audiobook collaborator. -/
theorem c10_period_tokens (spell : List String) (ws : List String) (w : String)
    (edit : String → String)
    (hws : ∀ u ∈ ws, u.data ≠ [] ∧ ∀ c ∈ u.data, isAsciiLetter c = true)
    (hspell : ∀ u ∈ ws, spell.contains (pyLower u) = true)
    (hwl : ∀ c ∈ w.data, isAsciiLetter c = true)
    (hnot : spell.contains (pyLower w ++ ".") = false) :
    find_misspelled_words spell (joinWords (ws ++ [w ++ "."])) = [w ++ "."] ∧
      (chain_functions_body edit spell (joinWords (ws ++ [w ++ "."]))).2
        = [ExtCall.edit (joinWords (ws ++ [w ++ "."]))] := by
  have hdot : (w ++ ("." : String)).data = w.data ++ [ '.'] := String.data_append w "."
  have htoks : ∀ t ∈ ws ++ [w ++ "."], t.data ≠ []
      ∧ (∀ c ∈ t.data, spellAllowed c = true)
      ∧ (∀ c ∈ t.data, isPySpace c = false) := by
    intro t ht
    rcases List.mem_append.mp ht with h1 | h1
    · refine ⟨(hws t h1).1, ?_, ?_⟩
      · exact fun c hc => letter_spellAllowed ((hws t h1).2 c hc)
      · exact fun c hc => letter_not_pyspace ((hws t h1).2 c hc)
    · rcases List.mem_singleton.mp h1 with rfl
      refine ⟨?_, ?_, ?_⟩
      · rw [hdot]
        simp
      · intro c hc
        rw [hdot] at hc
        rcases List.mem_append.mp hc with h2 | h2
        · exact letter_spellAllowed (hwl c h2)
        · rcases List.mem_singleton.mp h2 with rfl
          decide
      · intro c hc
        rw [hdot] at hc
        rcases List.mem_append.mp hc with h2 | h2
        · exact letter_not_pyspace (hwl c h2)
        · rcases List.mem_singleton.mp h2 with rfl
          decide
  have hmain : find_misspelled_words spell (joinWords (ws ++ [w ++ "."])) = [w ++ "."] := by
    rw [find_misspelled_join spell (ws ++ [w ++ "."]) (by simp) htoks]
    rw [List.filter_append]
    have hws2 : ws.filter (fun u => !(spell.contains (pyLower u))) = [] := by
      rw [List.filter_eq_nil_iff]
      intro u hu
      rw [hspell u hu]
      simp
    have hlast : ([w ++ "."] : List String).filter
        (fun u => !(spell.contains (pyLower u))) = [w ++ "."] := by
      have hcond : (!(spell.contains (pyLower (w ++ ".")))) = true := by
        rw [pyLower_append_dot, hnot]
        rfl
      simp only [List.filter, hcond]
    rw [hws2, hlast, List.nil_append]
  refine ⟨hmain, ?_⟩
  unfold chain_functions_body
  rw [hmain, if_neg (by simp)]

/-- C10, witness at a concrete dictionary and sentence. -/
theorem c10_period_tokens_witness :
    find_misspelled_words ["the", "hello"] (joinWords (["the"] ++ ["hello" ++ "."]))
        = ["hello" ++ "."] ∧
      (chain_functions_body (fun s => s) ["the", "hello"]
          (joinWords (["the"] ++ ["hello" ++ "."]))).2
        = [ExtCall.edit (joinWords (["the"] ++ ["hello" ++ "."]))] :=
  c10_period_tokens ["the", "hello"] ["the"] "hello" (fun s => s)
    (by decide) (by decide) (by decide) (by decide)

/-- C1, counterexample.  The claim states that on a paragraph with zero
misspelled tokens the decorated orchestrator returns the normalized text
and never invokes the external correction collaborators.  With the word
hello in the dictionary the spelling check finds nothing, yet the
modify_return decorator still applies its modifier chain to the returned
value, so prepare_audiobook is invoked (here recorded even though the
oracle raises): the call log is nonempty. -/
theorem c1_short_circuit_counterexample :
    find_misspelled_words ["hello"] "hello" = [] ∧
      (chain_functions_decorated (fun _ => none) (fun s => s) (fun s => some s)
        (fun l => l) ["hello"] "hello").2 ≠ [] := by
  decide

/-- C1, amended.  When the spelling check finds zero unrecognized tokens
the undecorated body returns its input unchanged and edit_audiobook is
not invoked, but the modify_return decorator then unconditionally invokes
prepare_audiobook on that value and applies clean_and_chain to the
result: the decorated orchestrator returns the normalization of the
prepare_audiobook output (or of the unchanged text when that call
raises), and the prepare_audiobook collaborator is always called exactly
once. -/
theorem c1_short_circuit_amended (prepare : String → Option String)
    (edit : String → String) (ext : String → Option String)
    (nfkd : List Char → List Char) (spell : List String) (p : String)
    (h : find_misspelled_words spell p = []) :
    chain_functions_decorated prepare edit ext nfkd spell p
      = (clean_and_chain ext nfkd ((prepare p).getD p), [ExtCall.prepare p]) := by
  have hbody : chain_functions_body edit spell p = (p, []) := by
    unfold chain_functions_body
    rw [h]
    rfl
  unfold chain_functions_decorated
  rw [hbody]
  rfl

/-- C1, amended, witness at a concrete paragraph and oracle. -/
theorem c1_short_circuit_amended_witness :
    chain_functions_decorated (fun s => some (s ++ "x")) (fun s => s)
        (fun s => some s) (fun l => l) ["hello"] "hello"
      = (clean_and_chain (fun s => some s) (fun l => l) "hellox",
          [ExtCall.prepare "hello"]) :=
  c1_short_circuit_amended (fun s => some (s ++ "x")) (fun s => s)
    (fun s => some s) (fun l => l) ["hello"] "hello" (by decide)

end VoxScriptum
